import Mathlib

/-!
Verification of the indexed priority queue in `src/lib.rs` (module
`sorted_queue`).  The Rust structure `SortedQueue<'a, T, F>` holds a
vector `heap : Vec<(T, &F)>`, a comparison closure `comp` fixed at
construction (either `a > b` for a max-first queue or `a < b` for a
min-first queue), and a `HashMap<&F, usize>` mapping each item to its
current heap index.

The embedding below is a direct translation: the heap vector becomes a
`List (T × F)`, the hash map becomes an association list with
HashMap-style `get`, `insert` (overwriting) and `remove` operations, and
the comparison closure — of which exactly two ever exist, chosen by the
`max : Bool` argument of `new` — is represented by storing that flag and
routing all comparisons through `comp`.  Rust's `&mut self` methods
become functions returning the updated queue (paired with the returned
value or error, mirroring each method's return type).  Indexing
`self.heap[i]`, which in Rust panics when out of bounds and is in bounds
in every reachable use, is modelled totally by `nth` with a default
element.  The unbounded `loop`s of `sift_down` and `sift_up` are
modelled with explicit fuel; the fuel supplied by the wrappers is proved
sufficient by the stabilisation theorems below (claim C10).
-/

set_option maxHeartbeats 1000000

namespace HeapQueue

/-- Translation of the Rust error type `NotInQueue`, returned when a
value to search for does not appear in the queue. -/
inductive NotInQueue where
  | notInQueue
deriving DecidableEq, Repr

/-- Total indexing with a default value, modelling `heap[i]`. -/
def nth {α : Type} [Inhabited α] (l : List α) (i : Nat) : α := l.getD i default

/-- HashMap removal, modelled on an association list: drops every
binding of the key. -/
def mapRemove {F : Type} [DecidableEq F] (m : List (F × Nat)) (k : F) : List (F × Nat) :=
  m.filter (fun p => !decide (p.1 = k))

/-- HashMap insertion: overwrites any existing binding of the key. -/
def mapInsert {F : Type} [DecidableEq F] (m : List (F × Nat)) (k : F) (v : Nat) : List (F × Nat) :=
  (k, v) :: mapRemove m k

/-- HashMap lookup. -/
def mapGet {F : Type} [DecidableEq F] (m : List (F × Nat)) (k : F) : Option Nat :=
  (m.find? (fun p => decide (p.1 = k))).map (·.2)

/-- Translation of `SortedQueue<'a, T, F>`: the heap of
`(priority, item)` entries, the construction-time flag selecting the
comparison closure (`true`: max-first, `a > b`; `false`: min-first,
`a < b`), and the item-to-index map. -/
structure SortedQueue (T F : Type) where
  heap : List (T × F)
  max : Bool
  map : List (F × Nat)

variable {T F : Type}

/-- The comparison closure installed by `new`: on a max-first queue it
is `fun x y => x.0 > y.0`, on a min-first queue `fun x y => x.0 < y.0`. -/
def comp [LinearOrder T] (mx : Bool) (x y : T × F) : Bool :=
  if mx then decide (y.1 < x.1) else decide (x.1 < y.1)

/-- Translation of `SortedQueue::new`: a blank queue bound to one
ordering strategy. -/
def SortedQueue.new (mx : Bool) : SortedQueue T F :=
  { heap := [], max := mx, map := [] }

/-- Translation of `SortedQueue::swap`: records both entries' new
indices in the map (first `o1 ↦ i2`, then `o2 ↦ i1`), then exchanges
the two heap slots. -/
def swap [DecidableEq F] [Inhabited T] [Inhabited F]
    (q : SortedQueue T F) (i1 i2 : Nat) : SortedQueue T F :=
  let e1 := nth q.heap i1
  let e2 := nth q.heap i2
  { q with
    map := mapInsert (mapInsert q.map e1.2 i2) e2.2 i1,
    heap := (q.heap.set i1 e2).set i2 e1 }

/-- The body of `sift_down`'s `loop`, with explicit fuel.  Each
iteration computes the left child `swap_index = 2*index+1`, breaks if it
is past the end, otherwise picks the candidate child exactly as the
source does and either swaps and continues from the candidate's index or
breaks. -/
def siftDownFuel [LinearOrder T] [DecidableEq F] [Inhabited T] [Inhabited F]
    (fuel : Nat) (q : SortedQueue T F) (index : Nat) : SortedQueue T F :=
  match fuel with
  | 0 => q
  | fuel + 1 =>
    let swap_index := 2 * index + 1
    if q.heap.length ≤ swap_index then q
    else if swap_index + 1 = q.heap.length
        || comp q.max (nth q.heap swap_index) (nth q.heap (swap_index + 1)) then
      if comp q.max (nth q.heap swap_index) (nth q.heap index) then
        siftDownFuel fuel (swap q index swap_index) swap_index
      else q
    else if comp q.max (nth q.heap (swap_index + 1)) (nth q.heap index) then
      siftDownFuel fuel (swap q index (swap_index + 1)) (swap_index + 1)
    else q

/-- Translation of `SortedQueue::sift_down`: returns immediately when
the heap has at most one entry, otherwise runs the loop.  Fuel
`heap.length` suffices because the loop index strictly increases and the
loop stops once `2*index+1` passes the end (the stabilisation theorem
for claim C10 proves this bound). -/
def sift_down [LinearOrder T] [DecidableEq F] [Inhabited T] [Inhabited F]
    (q : SortedQueue T F) (index : Nat) : SortedQueue T F :=
  if q.heap.length ≤ 1 then q else siftDownFuel q.heap.length q index

/-- The body of `sift_up`'s `loop`, with explicit fuel.  Note that the
source never reassigns the loop variable `index` after a swap (unlike
`sift_down`, there is no `index = swap_index`), so the recursive call
keeps the same `index`; the translation reproduces that. -/
def siftUpFuel [LinearOrder T] [DecidableEq F] [Inhabited T] [Inhabited F]
    (fuel : Nat) (q : SortedQueue T F) (index : Nat) : SortedQueue T F :=
  match fuel with
  | 0 => q
  | fuel + 1 =>
    let swap_index := (index - 1) / 2
    if comp q.max (nth q.heap index) (nth q.heap swap_index) then
      let q1 := swap q index swap_index
      if swap_index = 0 then q1 else siftUpFuel fuel q1 index
    else q

/-- Translation of `SortedQueue::sift_up`: returns immediately when the
heap has at most one entry or `index` is the root, otherwise runs the
loop.  Any fuel of at least 2 gives the same result (the loop always
breaks by its second iteration; see the stabilisation theorem for claim
C10), so `heap.length + 2` is sufficient. -/
def sift_up [LinearOrder T] [DecidableEq F] [Inhabited T] [Inhabited F]
    (q : SortedQueue T F) (index : Nat) : SortedQueue T F :=
  if q.heap.length ≤ 1 || index = 0 then q
  else siftUpFuel (q.heap.length + 2) q index

/-- Translation of `SortedQueue::enq`: pushes the entry at the end,
records the item's index, and sifts up from the new index. -/
def enq [LinearOrder T] [DecidableEq F] [Inhabited T] [Inhabited F]
    (q : SortedQueue T F) (value : T) (data : F) : SortedQueue T F :=
  let new_index := q.heap.length
  let q1 := { q with
    heap := q.heap ++ [(value, data)],
    map := mapInsert q.map data new_index }
  sift_up q1 new_index

/-- Translation of `SortedQueue::deq`: `None` on an empty heap;
otherwise swap the root with the last entry, remove the last entry,
sift down from the root, delete the removed item's map binding and
return the removed entry.  The mutated queue is returned alongside the
method's `Option` result. -/
def deq [LinearOrder T] [DecidableEq F] [Inhabited T] [Inhabited F]
    (q : SortedQueue T F) : SortedQueue T F × Option (T × F) :=
  if q.heap.length = 0 then (q, none)
  else
    let q1 := swap q 0 (q.heap.length - 1)
    let rem := nth q1.heap (q1.heap.length - 1)
    let q2 := { q1 with heap := q1.heap.dropLast }
    let q3 := sift_down q2 0
    let q4 := { q3 with map := mapRemove q3.map rem.2 }
    (q4, some rem)

/-- Translation of `SortedQueue::get_weight`: looks the item up in the
map and returns the priority stored at that heap slot. -/
def get_weight [DecidableEq F] [Inhabited T] [Inhabited F]
    (q : SortedQueue T F) (obj : F) : Option T :=
  match mapGet q.map obj with
  | none => none
  | some i => some (nth q.heap i).1

/-- Translation of `SortedQueue::change_priority`: fails with
`NotInQueue` when the item is absent; otherwise overwrites the priority
at the item's slot, then sifts down if the old priority compares better
than the new one, else sifts up.  The mutated queue is returned
alongside the method's `Result` (`none` = `Ok(())`). -/
def change_priority [LinearOrder T] [DecidableEq F] [Inhabited T] [Inhabited F]
    (q : SortedQueue T F) (new_value : T) (data : F) :
    SortedQueue T F × Option NotInQueue :=
  match mapGet q.map data with
  | none => (q, some NotInQueue.notInQueue)
  | some index =>
    let old_val := (nth q.heap index).1
    let q1 := { q with heap := q.heap.set index (new_value, data) }
    if comp q.max (old_val, data) (new_value, data) then
      (sift_down q1 index, none)
    else
      (sift_up q1 index, none)

/-- Translation of `SortedQueue::set_ref`: fails with `NotInQueue` when
the old item is absent; otherwise replaces the item at its slot (keeping
the priority), removes the old item's map binding and inserts the new
item at the same index. -/
def set_ref [DecidableEq F] [Inhabited T] [Inhabited F]
    (q : SortedQueue T F) (data new_ref : F) :
    SortedQueue T F × Option NotInQueue :=
  match mapGet q.map data with
  | none => (q, some NotInQueue.notInQueue)
  | some index =>
    let old_val := (nth q.heap index).1
    ({ q with
        heap := q.heap.set index (old_val, new_ref),
        map := mapInsert (mapRemove q.map data) new_ref index }, none)

/-- Translation of `SortedQueue::size`. -/
def size (q : SortedQueue T F) : Nat := q.heap.length

/-- Dequeues up to `fuel` entries and lists the returned priorities, in
order; used to observe the extraction order of repeated `deq` calls. -/
def deqVals [LinearOrder T] [DecidableEq F] [Inhabited T] [Inhabited F]
    (fuel : Nat) (q : SortedQueue T F) : List T :=
  match fuel with
  | 0 => []
  | fuel + 1 =>
    match deq q with
    | (q1, some e) => e.1 :: deqVals fuel q1
    | (_, none) => []

/-- The heap invariant of the spec, as a decidable check: for every
non-root index `i`, the entry at `i` does not compare better than its
parent at `(i-1)/2` (so the parent is not worse than the child). -/
def heapInvB [LinearOrder T] [DecidableEq F] [Inhabited T] [Inhabited F]
    (q : SortedQueue T F) : Bool :=
  (List.range q.heap.length).all fun i =>
    decide (i = 0) || !comp q.max (nth q.heap i) (nth q.heap ((i - 1) / 2))

/-- Index consistency relative to an optional `dead` item (used while
an extracted item's map binding is still pending removal inside `deq`):
every heap slot holds a non-dead item whose map binding is exactly its
index, and every map binding of a non-dead item points at the slot
holding that item. -/
def inSyncX [DecidableEq F] [Inhabited T] [Inhabited F]
    (q : SortedQueue T F) (dead : Option F) : Prop :=
  (∀ i, i < q.heap.length →
      dead ≠ some (nth q.heap i).2 ∧ mapGet q.map (nth q.heap i).2 = some i) ∧
  (∀ f j, dead ≠ some f → mapGet q.map f = some j →
      j < q.heap.length ∧ (nth q.heap j).2 = f)

/-- Index consistency of the spec: the position index and the heap store
are exactly synchronised. -/
def inSync [DecidableEq F] [Inhabited T] [Inhabited F] (q : SortedQueue T F) : Prop :=
  inSyncX q none

/-- Decidable companion of `inSync` for concrete queues. -/
def inSyncB [DecidableEq F] [Inhabited T] [Inhabited F] (q : SortedQueue T F) : Bool :=
  ((List.range q.heap.length).all fun i =>
      decide (mapGet q.map (nth q.heap i).2 = some i)) &&
  (q.map.all fun p =>
      match mapGet q.map p.1 with
      | some j => decide (j < q.heap.length) && decide ((nth q.heap j).2 = p.1)
      | none => false)

/-- Every slot with item `x` carries priority `p`; used to track the
round trip of `change_priority` followed by `get_weight` (claim C8). -/
def itemPrio [Inhabited T] [Inhabited F] (q : SortedQueue T F) (x : F) (p : T) : Prop :=
  ∀ j, j < q.heap.length → (nth q.heap j).2 = x → (nth q.heap j).1 = p

end HeapQueue

namespace HeapQueue

variable {α T F : Type}

theorem nth_oob [Inhabited α] {l : List α} {i : Nat} (h : l.length ≤ i) :
    nth l i = default :=
  List.getD_eq_default _ _ h

theorem nth_set_self [Inhabited α] {l : List α} {i : Nat} {a : α} (h : i < l.length) :
    nth (l.set i a) i = a := by
  unfold nth
  rw [List.getD_eq_getElem _ _ (by simpa using h)]
  exact List.getElem_set_self _

theorem nth_set_ne [Inhabited α] {l : List α} {i j : Nat} {a : α} (h : i ≠ j) :
    nth (l.set i a) j = nth l j := by
  unfold nth
  rcases Nat.lt_or_ge j l.length with hj | hj
  · rw [List.getD_eq_getElem _ _ (by simpa using hj), List.getD_eq_getElem _ _ hj]
    exact List.getElem_set_ne h _
  · rw [List.getD_eq_default _ _ (by simpa using hj), List.getD_eq_default _ _ hj]

theorem nth_append_left [Inhabited α] {l l2 : List α} {i : Nat} (h : i < l.length) :
    nth (l ++ l2) i = nth l i :=
  List.getD_append l l2 default i h

theorem nth_append_last [Inhabited α] {l : List α} {a : α} :
    nth (l ++ [a]) l.length = a := by
  unfold nth
  rw [List.getD_append_right l [a] default l.length le_rfl]
  simp

theorem nth_dropLast [Inhabited α] {l : List α} {i : Nat} (h : i < l.length - 1) :
    nth l.dropLast i = nth l i := by
  unfold nth
  have h1 : i < l.dropLast.length := by simpa using h
  have h2 : i < l.length := lt_of_lt_of_le h (Nat.sub_le _ _)
  rw [List.getD_eq_getElem _ _ h1, List.getD_eq_getElem _ _ h2]
  exact l.getElem_dropLast i h1

theorem mapGet_cons [DecidableEq F] (a : F × Nat) (m : List (F × Nat)) (k : F) :
    mapGet (a :: m) k = if a.1 = k then some a.2 else mapGet m k := by
  rw [mapGet, List.find?_cons]
  by_cases h : a.1 = k <;> simp [h, mapGet]

theorem mapRemove_cons [DecidableEq F] (a : F × Nat) (m : List (F × Nat)) (k : F) :
    mapRemove (a :: m) k = if a.1 = k then mapRemove m k else a :: mapRemove m k := by
  rw [mapRemove, List.filter_cons]
  by_cases h : a.1 = k <;> simp [h, mapRemove]

theorem mapGet_remove_self [DecidableEq F] (m : List (F × Nat)) (k : F) :
    mapGet (mapRemove m k) k = none := by
  induction m with
  | nil => rfl
  | cons a m ih =>
    rw [mapRemove_cons]
    by_cases h : a.1 = k
    · simpa [h] using ih
    · rw [if_neg h, mapGet_cons, if_neg h]
      exact ih

theorem mapGet_remove_ne [DecidableEq F] {m : List (F × Nat)} {k k' : F} (h : k' ≠ k) :
    mapGet (mapRemove m k) k' = mapGet m k' := by
  induction m with
  | nil => rfl
  | cons a m ih =>
    rw [mapRemove_cons]
    by_cases ha : a.1 = k
    · rw [if_pos ha, mapGet_cons, if_neg (by rw [ha]; exact fun hc => h hc.symm)]
      exact ih
    · rw [if_neg ha, mapGet_cons, mapGet_cons]
      by_cases ha' : a.1 = k' <;> simp [ha', ih]

theorem mapGet_insert_self [DecidableEq F] (m : List (F × Nat)) (k : F) (v : Nat) :
    mapGet (mapInsert m k v) k = some v := by
  rw [mapInsert, mapGet_cons, if_pos rfl]

theorem mapGet_insert_ne [DecidableEq F] {m : List (F × Nat)} {k k' : F} {v : Nat}
    (h : k' ≠ k) : mapGet (mapInsert m k v) k' = mapGet m k' := by
  rw [mapInsert, mapGet_cons, if_neg (fun hc => h hc.symm)]
  exact mapGet_remove_ne h

theorem swap_max [DecidableEq F] [Inhabited T] [Inhabited F]
    (q : SortedQueue T F) (i1 i2 : Nat) : (swap q i1 i2).max = q.max := rfl

theorem swap_heap_length [DecidableEq F] [Inhabited T] [Inhabited F]
    (q : SortedQueue T F) (i1 i2 : Nat) :
    (swap q i1 i2).heap.length = q.heap.length := by
  simp [swap]

theorem mapGet_swap_o2 [DecidableEq F] [Inhabited T] [Inhabited F]
    (q : SortedQueue T F) (i1 i2 : Nat) :
    mapGet (swap q i1 i2).map (nth q.heap i2).2 = some i1 := by
  rw [swap]
  exact mapGet_insert_self _ _ _

theorem mapGet_swap_o1 [DecidableEq F] [Inhabited T] [Inhabited F]
    {q : SortedQueue T F} {i1 i2 : Nat}
    (h : (nth q.heap i1).2 ≠ (nth q.heap i2).2) :
    mapGet (swap q i1 i2).map (nth q.heap i1).2 = some i2 := by
  rw [swap]
  rw [mapGet_insert_ne h]
  exact mapGet_insert_self _ _ _

theorem mapGet_swap_other [DecidableEq F] [Inhabited T] [Inhabited F]
    {q : SortedQueue T F} {i1 i2 : Nat} {f : F}
    (h1 : f ≠ (nth q.heap i1).2) (h2 : f ≠ (nth q.heap i2).2) :
    mapGet (swap q i1 i2).map f = mapGet q.map f := by
  rw [swap]
  rw [mapGet_insert_ne h2, mapGet_insert_ne h1]

theorem nth_swap_i2 [DecidableEq F] [Inhabited T] [Inhabited F]
    {q : SortedQueue T F} {i1 i2 : Nat} (h : i2 < q.heap.length) :
    nth (swap q i1 i2).heap i2 = nth q.heap i1 := by
  rw [swap]
  exact nth_set_self (by simpa using h)

theorem nth_swap_i1 [DecidableEq F] [Inhabited T] [Inhabited F]
    {q : SortedQueue T F} {i1 i2 : Nat} (h12 : i1 ≠ i2) (h : i1 < q.heap.length) :
    nth (swap q i1 i2).heap i1 = nth q.heap i2 := by
  rw [swap]
  rw [nth_set_ne (fun hc => h12 hc.symm)]
  exact nth_set_self h

theorem nth_swap_other [DecidableEq F] [Inhabited T] [Inhabited F]
    {q : SortedQueue T F} {i1 i2 j : Nat} (h1 : j ≠ i1) (h2 : j ≠ i2) :
    nth (swap q i1 i2).heap j = nth q.heap j := by
  rw [swap]
  rw [nth_set_ne (fun hc => h2 hc.symm), nth_set_ne (fun hc => h1 hc.symm)]

end HeapQueue

namespace HeapQueue

variable {T F : Type}

theorem comp_irrefl [LinearOrder T] (mx : Bool) (x : T × F) : comp mx x x = false := by
  rw [comp]
  split <;> simp

theorem comp_asymm [LinearOrder T] {mx : Bool} {x y : T × F}
    (h : comp mx x y = true) : comp mx y x = false := by
  rw [comp] at h ⊢
  by_cases hmx : mx
  · rw [if_pos hmx] at h ⊢
    simp only [decide_eq_true_eq] at h
    simpa using lt_asymm h
  · rw [if_neg hmx] at h ⊢
    simp only [decide_eq_true_eq] at h
    simpa using lt_asymm h

theorem siftDownFuel_zero [LinearOrder T] [DecidableEq F] [Inhabited T] [Inhabited F]
    (q : SortedQueue T F) (i : Nat) : siftDownFuel 0 q i = q := rfl

theorem siftDownFuel_succ_eq [LinearOrder T] [DecidableEq F] [Inhabited T] [Inhabited F]
    (fuel : Nat) (q : SortedQueue T F) (i : Nat) :
    siftDownFuel (fuel + 1) q i =
      if q.heap.length ≤ 2 * i + 1 then q
      else if (decide (2 * i + 1 + 1 = q.heap.length)
          || comp q.max (nth q.heap (2 * i + 1)) (nth q.heap (2 * i + 1 + 1))) = true then
        if comp q.max (nth q.heap (2 * i + 1)) (nth q.heap i) = true then
          siftDownFuel fuel (swap q i (2 * i + 1)) (2 * i + 1)
        else q
      else if comp q.max (nth q.heap (2 * i + 1 + 1)) (nth q.heap i) = true then
        siftDownFuel fuel (swap q i (2 * i + 1 + 1)) (2 * i + 1 + 1)
      else q := rfl

theorem siftUpFuel_zero [LinearOrder T] [DecidableEq F] [Inhabited T] [Inhabited F]
    (q : SortedQueue T F) (i : Nat) : siftUpFuel 0 q i = q := rfl

theorem siftUpFuel_succ_eq [LinearOrder T] [DecidableEq F] [Inhabited T] [Inhabited F]
    (fuel : Nat) (q : SortedQueue T F) (i : Nat) :
    siftUpFuel (fuel + 1) q i =
      if comp q.max (nth q.heap i) (nth q.heap ((i - 1) / 2)) = true then
        if (i - 1) / 2 = 0 then swap q i ((i - 1) / 2)
        else siftUpFuel fuel (swap q i ((i - 1) / 2)) i
      else q := rfl

theorem swap_heap_length_eq [DecidableEq F] [Inhabited T] [Inhabited F]
    {q : SortedQueue T F} {i1 i2 : Nat} {n : Nat} (h : q.heap.length = n) :
    (swap q i1 i2).heap.length = n := by
  rw [swap_heap_length]; exact h

theorem siftDownFuel_heap_length [LinearOrder T] [DecidableEq F] [Inhabited T] [Inhabited F] :
    ∀ (fuel : Nat) (q : SortedQueue T F) (i : Nat),
      (siftDownFuel fuel q i).heap.length = q.heap.length := by
  intro fuel
  induction fuel with
  | zero => intro q i; rfl
  | succ fuel ih =>
    intro q i
    rw [siftDownFuel_succ_eq]
    split
    · rfl
    · split
      · split
        · rw [ih, swap_heap_length]
        · rfl
      · split
        · rw [ih, swap_heap_length]
        · rfl

theorem siftUpFuel_heap_length [LinearOrder T] [DecidableEq F] [Inhabited T] [Inhabited F] :
    ∀ (fuel : Nat) (q : SortedQueue T F) (i : Nat),
      (siftUpFuel fuel q i).heap.length = q.heap.length := by
  intro fuel
  induction fuel with
  | zero => intro q i; rfl
  | succ fuel ih =>
    intro q i
    rw [siftUpFuel_succ_eq]
    split
    · split
      · rw [swap_heap_length]
      · rw [ih, swap_heap_length]
    · rfl

theorem sift_down_heap_length [LinearOrder T] [DecidableEq F] [Inhabited T] [Inhabited F]
    (q : SortedQueue T F) (i : Nat) :
    (sift_down q i).heap.length = q.heap.length := by
  rw [sift_down]
  split
  · rfl
  · rw [siftDownFuel_heap_length]

theorem sift_up_heap_length [LinearOrder T] [DecidableEq F] [Inhabited T] [Inhabited F]
    (q : SortedQueue T F) (i : Nat) :
    (sift_up q i).heap.length = q.heap.length := by
  rw [sift_up]
  split
  · rfl
  · rw [siftUpFuel_heap_length]

theorem siftDownFuel_of_le [LinearOrder T] [DecidableEq F] [Inhabited T] [Inhabited F]
    {q : SortedQueue T F} {i : Nat} (h : q.heap.length ≤ 2 * i + 1) (fuel : Nat) :
    siftDownFuel fuel q i = q := by
  cases fuel with
  | zero => rfl
  | succ fuel => rw [siftDownFuel_succ_eq, if_pos h]

theorem siftDownFuel_stable [LinearOrder T] [DecidableEq F] [Inhabited T] [Inhabited F] :
    ∀ (fuel1 fuel2 : Nat) (q : SortedQueue T F) (i : Nat),
      q.heap.length - i ≤ fuel1 → q.heap.length - i ≤ fuel2 →
      siftDownFuel fuel1 q i = siftDownFuel fuel2 q i := by
  intro fuel1
  induction fuel1 with
  | zero =>
    intro fuel2 q i h1 _
    have hle : q.heap.length ≤ i := by omega
    rw [siftDownFuel_of_le (by omega) fuel2, siftDownFuel_zero]
  | succ f1 ih =>
    intro fuel2 q i h1 h2
    by_cases hb : q.heap.length ≤ 2 * i + 1
    · rw [siftDownFuel_of_le hb, siftDownFuel_of_le hb]
    · have hsi : 2 * i + 1 < q.heap.length := Nat.lt_of_not_le hb
      cases fuel2 with
      | zero => omega
      | succ f2 =>
        rw [siftDownFuel_succ_eq f1, siftDownFuel_succ_eq f2]
        rw [if_neg hb, if_neg hb]
        split
        next hc =>
          split
          next hd =>
            exact ih f2 (swap q i (2 * i + 1)) (2 * i + 1)
              (by rw [swap_heap_length]; omega) (by rw [swap_heap_length]; omega)
          next hd => rfl
        next hc =>
          split
          next hd =>
            exact ih f2 (swap q i (2 * i + 1 + 1)) (2 * i + 1 + 1)
              (by rw [swap_heap_length]; omega) (by rw [swap_heap_length]; omega)
          next hd => rfl

theorem comp_after_swap [LinearOrder T] [DecidableEq F] [Inhabited T] [Inhabited F]
    {q : SortedQueue T F} {i si : Nat} (hlt : si < i)
    (h : comp q.max (nth q.heap i) (nth q.heap si) = true) :
    comp (swap q i si).max (nth (swap q i si).heap i) (nth (swap q i si).heap si) = false := by
  rw [swap_max]
  by_cases hi : i < q.heap.length
  · have hsi : si < q.heap.length := lt_trans hlt hi
    rw [nth_swap_i1 (Nat.ne_of_gt hlt) hi, nth_swap_i2 hsi]
    exact comp_asymm h
  · have h1 : nth (swap q i si).heap i = default :=
      nth_oob (by rw [swap_heap_length]; exact le_of_not_lt hi)
    by_cases hsi : si < q.heap.length
    · rw [h1, nth_swap_i2 hsi, nth_oob (le_of_not_lt hi)]
      exact comp_irrefl _ _
    · rw [h1, nth_oob (by rw [swap_heap_length]; exact le_of_not_lt hsi)]
      exact comp_irrefl _ _

theorem siftUpFuel_one [LinearOrder T] [DecidableEq F] [Inhabited T] [Inhabited F]
    (q : SortedQueue T F) (i : Nat) :
    siftUpFuel 1 q i =
      if comp q.max (nth q.heap i) (nth q.heap ((i - 1) / 2)) = true then
        swap q i ((i - 1) / 2)
      else q := by
  show siftUpFuel (0 + 1) q i = _
  rw [siftUpFuel_succ_eq 0]
  split
  · split <;> rfl
  · rfl

theorem siftUpFuel_stable [LinearOrder T] [DecidableEq F] [Inhabited T] [Inhabited F] :
    ∀ (f : Nat) (q : SortedQueue T F) (i : Nat),
      siftUpFuel (f + 2) q i = siftUpFuel 2 q i := by
  intro f q i
  show siftUpFuel (f + 1 + 1) q i = siftUpFuel (1 + 1) q i
  rw [siftUpFuel_succ_eq (f + 1), siftUpFuel_succ_eq 1]
  split
  next hc =>
    split
    next => rfl
    next h0 =>
      have hne : i ≠ (i - 1) / 2 := by
        intro he
        rw [← he] at hc
        rw [comp_irrefl] at hc
        exact Bool.false_ne_true hc
      have hlt : (i - 1) / 2 < i := by
        rcases Nat.eq_zero_or_pos i with hz | hp
        · exact absurd (by omega : i = (i - 1) / 2) hne
        · have := Nat.div_le_self (i - 1) 2
          omega
      have hfalse := comp_after_swap hlt hc
      cases f with
      | zero => rfl
      | succ g =>
        rw [siftUpFuel_succ_eq (g + 1), siftUpFuel_one]
        rw [if_neg (by rw [hfalse]; exact Bool.false_ne_true)]
        rw [if_neg (by rw [hfalse]; exact Bool.false_ne_true)]
  next => rfl

end HeapQueue

namespace HeapQueue

variable {T F : Type}

theorem inSyncX_distinct [DecidableEq F] [Inhabited T] [Inhabited F]
    {q : SortedQueue T F} {d : Option F} (hq : inSyncX q d) {i j : Nat}
    (hi : i < q.heap.length) (hj : j < q.heap.length)
    (h : (nth q.heap i).2 = (nth q.heap j).2) : i = j := by
  have h1 := (hq.1 i hi).2
  have h2 := (hq.1 j hj).2
  rw [h] at h1
  rw [h1] at h2
  exact Option.some_injective _ h2

theorem swap_inSyncX [DecidableEq F] [Inhabited T] [Inhabited F]
    {q : SortedQueue T F} {d : Option F} {i1 i2 : Nat}
    (hi1 : i1 < q.heap.length) (hi2 : i2 < q.heap.length)
    (hq : inSyncX q d) : inSyncX (swap q i1 i2) d := by
  have F1 : mapGet q.map (nth q.heap i1).2 = some i1 := (hq.1 i1 hi1).2
  have F2 : mapGet q.map (nth q.heap i2).2 = some i2 := (hq.1 i2 hi2).2
  have D1 : d ≠ some (nth q.heap i1).2 := (hq.1 i1 hi1).1
  have D2 : d ≠ some (nth q.heap i2).2 := (hq.1 i2 hi2).1
  by_cases h12 : i1 = i2
  · subst h12
    have hitem : ∀ j, nth (swap q i1 i1).heap j = nth q.heap j := by
      intro j
      by_cases hj : j = i1
      · subst hj; exact nth_swap_i2 hi1
      · exact nth_swap_other hj hj
    constructor
    · intro i hi
      rw [swap_heap_length] at hi
      rw [hitem]
      refine ⟨(hq.1 i hi).1, ?_⟩
      by_cases hx : (nth q.heap i).2 = (nth q.heap i1).2
      · have : i = i1 := inSyncX_distinct hq hi hi1 hx
        subst this
        rw [hx, mapGet_swap_o2]
      · rw [mapGet_swap_other hx hx]
        exact (hq.1 i hi).2
    · intro f j hd hget
      rw [swap_heap_length]
      by_cases hf : f = (nth q.heap i1).2
      · subst hf
        rw [mapGet_swap_o2] at hget
        have hj : j = i1 := (Option.some_injective _ hget).symm
        subst hj
        exact ⟨hi1, by rw [hitem]⟩
      · rw [mapGet_swap_other hf hf] at hget
        obtain ⟨hj, hjf⟩ := hq.2 f j hd hget
        exact ⟨hj, by rw [hitem]; exact hjf⟩
  · have ho12 : (nth q.heap i1).2 ≠ (nth q.heap i2).2 := by
      intro hc
      exact h12 (inSyncX_distinct hq hi1 hi2 hc)
    constructor
    · intro i hi
      rw [swap_heap_length] at hi
      by_cases he2 : i = i2
      · subst he2
        rw [nth_swap_i2 hi2]
        exact ⟨D1, by rw [mapGet_swap_o1 ho12]⟩
      · by_cases he1 : i = i1
        · subst he1
          rw [nth_swap_i1 h12 hi1]
          exact ⟨D2, by rw [mapGet_swap_o2]⟩
        · rw [nth_swap_other he1 he2]
          refine ⟨(hq.1 i hi).1, ?_⟩
          have hn1 : (nth q.heap i).2 ≠ (nth q.heap i1).2 := by
            intro hc
            exact he1 (inSyncX_distinct hq hi hi1 hc)
          have hn2 : (nth q.heap i).2 ≠ (nth q.heap i2).2 := by
            intro hc
            exact he2 (inSyncX_distinct hq hi hi2 hc)
          rw [mapGet_swap_other hn1 hn2]
          exact (hq.1 i hi).2
    · intro f j hd hget
      rw [swap_heap_length]
      by_cases hf2 : f = (nth q.heap i2).2
      · subst hf2
        rw [mapGet_swap_o2] at hget
        have hj : j = i1 := (Option.some_injective _ hget).symm
        subst hj
        exact ⟨hi1, by rw [nth_swap_i1 h12 hi1]⟩
      · by_cases hf1 : f = (nth q.heap i1).2
        · subst hf1
          rw [mapGet_swap_o1 ho12] at hget
          have hj : j = i2 := (Option.some_injective _ hget).symm
          subst hj
          exact ⟨hi2, by rw [nth_swap_i2 hi2]⟩
        · rw [mapGet_swap_other hf1 hf2] at hget
          obtain ⟨hj, hjf⟩ := hq.2 f j hd hget
          have hne1 : j ≠ i1 := by
            intro hc; subst hc; exact hf1 hjf.symm
          have hne2 : j ≠ i2 := by
            intro hc; subst hc; exact hf2 hjf.symm
          exact ⟨hj, by rw [nth_swap_other hne1 hne2]; exact hjf⟩

theorem swap_itemPrio [DecidableEq F] [Inhabited T] [Inhabited F]
    {q : SortedQueue T F} {x : F} {p : T} {i1 i2 : Nat}
    (hi1 : i1 < q.heap.length) (hi2 : i2 < q.heap.length)
    (hp : itemPrio q x p) : itemPrio (swap q i1 i2) x p := by
  intro j hj hx
  rw [swap_heap_length] at hj
  by_cases he2 : j = i2
  · subst he2
    rw [nth_swap_i2 hi2] at hx ⊢
    exact hp i1 hi1 hx
  · by_cases he1 : j = i1
    · have h12 : i1 ≠ i2 := by rw [← he1]; exact he2
      rw [he1] at hx ⊢
      rw [nth_swap_i1 h12 hi1] at hx ⊢
      exact hp i2 hi2 hx
    · rw [nth_swap_other he1 he2] at hx ⊢
      exact hp j hj hx

theorem swap_mapGet_isSome [DecidableEq F] [Inhabited T] [Inhabited F]
    {q : SortedQueue T F} {x : F} {i1 i2 : Nat}
    (h : (mapGet q.map x).isSome) :
    (mapGet (swap q i1 i2).map x).isSome := by
  by_cases h2 : x = (nth q.heap i2).2
  · subst h2; rw [mapGet_swap_o2]; rfl
  · by_cases h1 : x = (nth q.heap i1).2
    · subst h1
      rw [mapGet_swap_o1 (fun hc => h2 hc)]
      rfl
    · rw [mapGet_swap_other h1 h2]
      exact h

theorem siftDownFuel_preserves [LinearOrder T] [DecidableEq F] [Inhabited T] [Inhabited F]
    (P : SortedQueue T F → Prop)
    (hswap : ∀ (q : SortedQueue T F) (i1 i2 : Nat),
      i1 < q.heap.length → i2 < q.heap.length → P q → P (swap q i1 i2)) :
    ∀ (fuel : Nat) (q : SortedQueue T F) (i : Nat),
      i < q.heap.length → P q → P (siftDownFuel fuel q i) := by
  intro fuel
  induction fuel with
  | zero => exact fun q i _ hP => hP
  | succ fuel ih =>
    intro q i hi hP
    rw [siftDownFuel_succ_eq]
    split
    next => exact hP
    next hb =>
      have hsi : 2 * i + 1 < q.heap.length := Nat.lt_of_not_le hb
      split
      next hc =>
        split
        next hd =>
          exact ih _ _ (by rw [swap_heap_length]; exact hsi)
            (hswap _ _ _ hi hsi hP)
        next => exact hP
      next hc =>
        have hne : 2 * i + 1 + 1 ≠ q.heap.length := by
          intro he
          exact hc (by simp [he])
        have hsi2 : 2 * i + 1 + 1 < q.heap.length :=
          Nat.lt_of_le_of_ne hsi hne
        split
        next hd =>
          exact ih _ _ (by rw [swap_heap_length]; exact hsi2)
            (hswap _ _ _ hi hsi2 hP)
        next => exact hP

theorem siftUpFuel_preserves [LinearOrder T] [DecidableEq F] [Inhabited T] [Inhabited F]
    (P : SortedQueue T F → Prop)
    (hswap : ∀ (q : SortedQueue T F) (i1 i2 : Nat),
      i1 < q.heap.length → i2 < q.heap.length → P q → P (swap q i1 i2)) :
    ∀ (fuel : Nat) (q : SortedQueue T F) (i : Nat),
      i < q.heap.length → P q → P (siftUpFuel fuel q i) := by
  intro fuel
  induction fuel with
  | zero => exact fun q i _ hP => hP
  | succ fuel ih =>
    intro q i hi hP
    rw [siftUpFuel_succ_eq]
    have hsi : (i - 1) / 2 < q.heap.length :=
      lt_of_le_of_lt (le_trans (Nat.div_le_self _ _) (Nat.sub_le _ _)) hi
    split
    next hc =>
      split
      next => exact hswap _ _ _ hi hsi hP
      next =>
        exact ih _ _ (by rw [swap_heap_length]; exact hi)
          (hswap _ _ _ hi hsi hP)
    next => exact hP

theorem sift_down_preserves [LinearOrder T] [DecidableEq F] [Inhabited T] [Inhabited F]
    (P : SortedQueue T F → Prop)
    (hswap : ∀ (q : SortedQueue T F) (i1 i2 : Nat),
      i1 < q.heap.length → i2 < q.heap.length → P q → P (swap q i1 i2))
    (q : SortedQueue T F) (i : Nat) (hi : i < q.heap.length) (hP : P q) :
    P (sift_down q i) := by
  rw [sift_down]
  split
  · exact hP
  · exact siftDownFuel_preserves P hswap _ q i hi hP

theorem sift_up_preserves [LinearOrder T] [DecidableEq F] [Inhabited T] [Inhabited F]
    (P : SortedQueue T F → Prop)
    (hswap : ∀ (q : SortedQueue T F) (i1 i2 : Nat),
      i1 < q.heap.length → i2 < q.heap.length → P q → P (swap q i1 i2))
    (q : SortedQueue T F) (i : Nat) (hi : i < q.heap.length) (hP : P q) :
    P (sift_up q i) := by
  rw [sift_up]
  split
  · exact hP
  · exact siftUpFuel_preserves P hswap _ q i hi hP

end HeapQueue

namespace HeapQueue

variable {T F : Type}

theorem inSyncX_congr [DecidableEq F] [Inhabited T] [Inhabited F]
    {q q' : SortedQueue T F} {d : Option F}
    (hlen : q'.heap.length = q.heap.length)
    (hmap : ∀ f, mapGet q'.map f = mapGet q.map f)
    (hitem : ∀ j, j < q.heap.length → (nth q'.heap j).2 = (nth q.heap j).2)
    (hq : inSyncX q d) : inSyncX q' d := by
  constructor
  · intro i hi
    rw [hlen] at hi
    rw [hitem i hi, hmap]
    exact hq.1 i hi
  · intro f j hd hget
    rw [hmap] at hget
    obtain ⟨hj, hjf⟩ := hq.2 f j hd hget
    rw [hlen]
    exact ⟨hj, by rw [hitem j hj]; exact hjf⟩

theorem mapGet_mem [DecidableEq F] :
    ∀ (m : List (F × Nat)) (f : F) (j : Nat), mapGet m f = some j → (f, j) ∈ m := by
  intro m f j
  induction m with
  | nil => intro h; exact Option.noConfusion h
  | cons a m ih =>
    rw [mapGet_cons]
    by_cases hf : a.1 = f
    · rw [if_pos hf]
      intro h
      have h2 : a.2 = j := Option.some_injective _ h
      exact List.mem_cons.mpr (Or.inl (by cases a; simp_all))
    · rw [if_neg hf]
      intro h
      exact List.mem_cons.mpr (Or.inr (ih h))

theorem inSync_of_inSyncB [DecidableEq F] [Inhabited T] [Inhabited F]
    {q : SortedQueue T F} (h : inSyncB q = true) : inSync q := by
  rw [inSyncB, Bool.and_eq_true] at h
  obtain ⟨h1, h2⟩ := h
  rw [List.all_eq_true] at h1 h2
  constructor
  · intro i hi
    refine ⟨by simp, ?_⟩
    exact of_decide_eq_true (h1 i (List.mem_range.mpr hi))
  · intro f j _ hget
    have hmem := mapGet_mem q.map f j hget
    have hall : (match mapGet q.map f with
        | some j2 => decide (j2 < q.heap.length) && decide ((nth q.heap j2).2 = f)
        | none => false) = true := h2 (f, j) hmem
    rw [hget] at hall
    simp only [Bool.and_eq_true, decide_eq_true_eq] at hall
    exact hall

theorem enq_inSync [LinearOrder T] [DecidableEq F] [Inhabited T] [Inhabited F]
    {q : SortedQueue T F} (hq : inSync q) {v : T} {d : F}
    (hfresh : mapGet q.map d = none) : inSync (enq q v d) := by
  simp only [enq]
  have hq1 : inSync ({ q with
      heap := q.heap ++ [(v, d)],
      map := mapInsert q.map d q.heap.length } : SortedQueue T F) := by
    constructor
    · intro i hi
      simp only [List.length_append, List.length_singleton] at hi
      refine ⟨by simp, ?_⟩
      by_cases hin : i < q.heap.length
      · rw [nth_append_left hin]
        have hne : (nth q.heap i).2 ≠ d := by
          intro hc
          have hg := (hq.1 i hin).2
          rw [hc, hfresh] at hg
          exact Option.noConfusion hg
        rw [mapGet_insert_ne hne]
        exact (hq.1 i hin).2
      · have hieq : i = q.heap.length := by omega
        rw [hieq, nth_append_last, mapGet_insert_self]
    · intro f j _ hget
      by_cases hf : f = d
      · rw [hf, mapGet_insert_self] at hget
        have hj : q.heap.length = j := Option.some_injective _ hget
        rw [← hj]
        constructor
        · simp
        · rw [hf, nth_append_last]
      · rw [mapGet_insert_ne hf] at hget
        obtain ⟨hj, hjf⟩ := hq.2 f j (by simp) hget
        constructor
        · simp only [List.length_append, List.length_singleton]
          omega
        · rw [nth_append_left hj]
          exact hjf
  exact sift_up_preserves (fun q2 => inSyncX q2 none)
    (fun a i1 i2 hb hc hP => swap_inSyncX hb hc hP)
    _ q.heap.length (by simp) hq1

theorem deq_inSync [LinearOrder T] [DecidableEq F] [Inhabited T] [Inhabited F]
    {q : SortedQueue T F} (hq : inSync q) : inSync (deq q).1 := by
  rw [deq]
  split
  next => exact hq
  next hne =>
    have hn : 0 < q.heap.length := Nat.pos_of_ne_zero hne
    set q1 := swap q 0 (q.heap.length - 1) with hq1
    have len1 : q1.heap.length = q.heap.length := swap_heap_length q 0 _
    have h1 : inSyncX q1 none := swap_inSyncX hn (by omega) hq
    set rem := nth q1.heap (q1.heap.length - 1) with hrem
    set q2 : SortedQueue T F := { q1 with heap := q1.heap.dropLast } with hq2
    have len2 : q2.heap.length = q.heap.length - 1 := by
      show q1.heap.dropLast.length = _
      rw [List.length_dropLast, len1]
    have h2 : inSyncX q2 (some rem.2) := by
      constructor
      · intro i hi
        rw [len2] at hi
        have hi1 : i < q1.heap.length - 1 := by omega
        have hil : i < q1.heap.length := by omega
        have hitem : nth q2.heap i = nth q1.heap i := nth_dropLast hi1
        rw [hitem]
        constructor
        · intro hc
          have hc2 : (nth q1.heap (q1.heap.length - 1)).2 = (nth q1.heap i).2 :=
            Option.some_injective _ hc
          have := inSyncX_distinct h1 (by omega) hil hc2
          omega
        · exact (h1.1 i hil).2
      · intro f j hd hget
        obtain ⟨hj, hjf⟩ := h1.2 f j (by simp) hget
        have hjne : j ≠ q1.heap.length - 1 := by
          intro hc
          apply hd
          show some (nth q1.heap (q1.heap.length - 1)).2 = some f
          rw [← hc, hjf]
        rw [len2]
        refine ⟨by omega, ?_⟩
        rw [nth_dropLast (by omega)]
        exact hjf
    have h3 : inSyncX (sift_down q2 0) (some rem.2) := by
      rw [sift_down]
      split
      · exact h2
      next hl =>
        exact siftDownFuel_preserves _
          (fun a i1 i2 hb hc hP => swap_inSyncX hb hc hP)
          _ _ 0 (by omega) h2
    have h4 : inSyncX ({ sift_down q2 0 with
        map := mapRemove (sift_down q2 0).map rem.2 } : SortedQueue T F) none := by
      constructor
      · intro i hi
        refine ⟨by simp, ?_⟩
        obtain ⟨hd, hg⟩ := h3.1 i hi
        have hnd : (nth (sift_down q2 0).heap i).2 ≠ rem.2 := by
          intro hc
          exact hd (by rw [hc])
        show mapGet (mapRemove (sift_down q2 0).map rem.2) _ = some i
        rw [mapGet_remove_ne hnd]
        exact hg
      · intro f j _ hget
        have hget2 : mapGet (mapRemove (sift_down q2 0).map rem.2) f = some j := hget
        by_cases hf : f = rem.2
        · rw [hf, mapGet_remove_self] at hget2
          exact Option.noConfusion hget2
        · rw [mapGet_remove_ne hf] at hget2
          exact h3.2 f j (fun hc => hf (Option.some_injective _ hc).symm) hget2
    exact h4

end HeapQueue

namespace HeapQueue

variable {T F : Type}

theorem change_priority_inSync [LinearOrder T] [DecidableEq F] [Inhabited T] [Inhabited F]
    {q : SortedQueue T F} (hq : inSync q) (v : T) (d0 : F) :
    inSync (change_priority q v d0).1 := by
  rcases hmg : mapGet q.map d0 with _ | index
  · simp only [change_priority, hmg]
    exact hq
  · obtain ⟨hidx, hitem⟩ := hq.2 d0 index (by simp) hmg
    simp only [change_priority, hmg]
    have hq1 : inSync ({ q with heap := q.heap.set index (v, d0) } : SortedQueue T F) := by
      apply inSyncX_congr (q := q)
      · simp
      · intro f; rfl
      · intro j hj
        by_cases hji : j = index
        · rw [hji, nth_set_self hidx, hitem]
        · rw [nth_set_ne (fun hc => hji hc.symm)]
      · exact hq
    split
    · show inSync (sift_down _ index)
      exact sift_down_preserves (fun a => inSyncX a none)
        (fun a i1 i2 hb hc hP => swap_inSyncX hb hc hP)
        _ index (by simpa using hidx) hq1
    · show inSync (sift_up _ index)
      exact sift_up_preserves (fun a => inSyncX a none)
        (fun a i1 i2 hb hc hP => swap_inSyncX hb hc hP)
        _ index (by simpa using hidx) hq1

theorem set_ref_inSync [DecidableEq F] [Inhabited T] [Inhabited F]
    {q : SortedQueue T F} (hq : inSync q) {d0 r : F}
    (hfr : mapGet q.map r = none ∨ r = d0) :
    inSync (set_ref q d0 r).1 := by
  rcases hmg : mapGet q.map d0 with _ | index
  · simp only [set_ref, hmg]
    exact hq
  · obtain ⟨hidx, hitem⟩ := hq.2 d0 index (by simp) hmg
    simp only [set_ref, hmg]
    rcases hfr with hfr | hfr
    · have hrd : r ≠ d0 := by
        intro hc
        rw [hc, hmg] at hfr
        exact Option.noConfusion hfr
      constructor
      · intro i hi
        have hi' : i < q.heap.length := by simpa using hi
        refine ⟨by simp, ?_⟩
        by_cases hji : i = index
        · rw [hji, nth_set_self hidx]
          show mapGet (mapInsert (mapRemove q.map d0) r index) r = some index
          rw [mapGet_insert_self]
        · rw [nth_set_ne (fun hc => hji hc.symm)]
          have h1 : (nth q.heap i).2 ≠ r := by
            intro hc
            have hg := (hq.1 i hi').2
            rw [hc, hfr] at hg
            exact Option.noConfusion hg
          have h2 : (nth q.heap i).2 ≠ d0 := by
            intro hc
            rw [← hitem] at hc
            exact hji (inSyncX_distinct hq hi' hidx hc)
          show mapGet (mapInsert (mapRemove q.map d0) r index) _ = some i
          rw [mapGet_insert_ne h1, mapGet_remove_ne h2]
          exact (hq.1 i hi').2
      · intro f j _ hget
        have hget2 : mapGet (mapInsert (mapRemove q.map d0) r index) f = some j := hget
        by_cases hf : f = r
        · rw [hf, mapGet_insert_self] at hget2
          have hj : index = j := Option.some_injective _ hget2
          rw [← hj]
          refine ⟨by simpa using hidx, ?_⟩
          rw [hf, nth_set_self hidx]
        · rw [mapGet_insert_ne hf] at hget2
          by_cases hfd : f = d0
          · rw [hfd, mapGet_remove_self] at hget2
            exact Option.noConfusion hget2
          · rw [mapGet_remove_ne hfd] at hget2
            obtain ⟨hj, hjf⟩ := hq.2 f j (by simp) hget2
            have hjne : j ≠ index := by
              intro hc
              rw [hc, hitem] at hjf
              exact hfd hjf.symm
            refine ⟨by simpa using hj, ?_⟩
            rw [nth_set_ne (fun hc => hjne hc.symm)]
            exact hjf
    · rw [hfr]
      apply inSyncX_congr (q := q)
      · simp
      · intro f
        by_cases hf : f = d0
        · rw [hf]
          show mapGet (mapInsert (mapRemove q.map d0) d0 index) d0 = _
          rw [mapGet_insert_self, hmg]
        · show mapGet (mapInsert (mapRemove q.map d0) d0 index) f = _
          rw [mapGet_insert_ne hf, mapGet_remove_ne hf]
      · intro j hj
        by_cases hji : j = index
        · rw [hji, nth_set_self hidx, hitem]
        · rw [nth_set_ne (fun hc => hji hc.symm)]
      · exact hq

end HeapQueue

namespace HeapQueue

variable {T F : Type}

theorem deq_empty_eq [LinearOrder T] [DecidableEq F] [Inhabited T] [Inhabited F]
    (q : SortedQueue T F) (h : q.heap.length = 0) : deq q = (q, none) := by
  rw [deq, if_pos h]

theorem deq_nonempty_parts [LinearOrder T] [DecidableEq F] [Inhabited T] [Inhabited F]
    (q : SortedQueue T F) (h : ¬q.heap.length = 0) :
    (deq q).1.heap.length = q.heap.length - 1 ∧ (deq q).2.isSome := by
  rw [deq, if_neg h]
  constructor
  · show (sift_down ({ swap q 0 (q.heap.length - 1) with
        heap := (swap q 0 (q.heap.length - 1)).heap.dropLast } : SortedQueue T F) 0).heap.length = _
    rw [sift_down_heap_length]
    show (swap q 0 (q.heap.length - 1)).heap.dropLast.length = _
    rw [List.length_dropLast, swap_heap_length]
  · rfl

end HeapQueue

namespace HeapQueue

variable {T F : Type}

/-- Claim C1, evaluated at a failing input.  The claim states that after
every public operation the heap store satisfies the heap invariant.  It
fails on the code: enqueuing priorities 10, 5, 8, 20 (in that order) into
a max-first queue leaves the heap violating the invariant, because
`sift_up` never advances its loop index and so moves the new entry up at
most one level (priority 20 is left at index 1 below its parent 10). -/
theorem c1_enq_breaks_heap_invariant :
    heapInvB (enq (enq (enq (enq (SortedQueue.new true) (10 : Int) (0 : Nat)) 5 1) 8 2) 20 3)
      = false := by decide

/-- Claim C2, evaluated at a failing input.  The claim states that after
the swap, sift-up continues from the parent's old index until the root or
a better-or-equal parent.  The code never reassigns the loop index, so
after enqueuing 10, 5, 8, 20 into a max-first queue the entry with
priority 20 stops at index 1 (the heap reads 10, 20, 8, 5) instead of
reaching the root as the claimed procedure would (20, 10, 8, 5). -/
theorem c2_sift_up_single_swap :
    (enq (enq (enq (enq (SortedQueue.new true) (10 : Int) (0 : Nat)) 5 1) 8 2) 20 3).heap
      = [(10, 0), (20, 3), (8, 2), (5, 1)] := by decide

/-- Claim C3, evaluated at a failing input.  The claim states that a
max-first queue dequeues in non-increasing priority order and that the
spec's example [5, 1, 9, 3] dequeues as 9, 5, 3, 1.  The example does
hold, but the general statement fails on the code: enqueuing 10, 5, 8, 20
and dequeuing four times yields 10, 20, 8, 5, which is not
non-increasing (the broken `sift_up` left 20 buried below 10). -/
theorem c3_extraction_order_violated :
    deqVals 4 (enq (enq (enq (enq (SortedQueue.new true) (10 : Int) (0 : Nat)) 5 1) 8 2) 20 3)
        = [10, 20, 8, 5] ∧
    deqVals 4 (enq (enq (enq (enq (SortedQueue.new true) (5 : Int) (0 : Nat)) 1 1) 9 2) 3 3)
        = [9, 5, 3, 1] := by decide

/-- Claim C5: calling `change_priority` or `set_ref` with an item absent
from the position index returns the not-found error and leaves the queue
exactly as before the call (the lookup happens before any mutation). -/
theorem c5_not_found_error_no_mutation [LinearOrder T] [DecidableEq F] [Inhabited T] [Inhabited F] :
    ∀ (q : SortedQueue T F) (v : T) (d0 r : F), mapGet q.map d0 = none →
      change_priority q v d0 = (q, some NotInQueue.notInQueue) ∧
      set_ref q d0 r = (q, some NotInQueue.notInQueue) := by
  intro q v d0 r h
  constructor
  · simp only [change_priority, h]
  · simp only [set_ref, h]

/-- Witness for claim C5 at a concrete input. -/
theorem c5_witness :
    change_priority (SortedQueue.new true : SortedQueue Int Nat) 1 7
        = (SortedQueue.new true, some NotInQueue.notInQueue) ∧
      set_ref (SortedQueue.new true : SortedQueue Int Nat) 7 8
        = (SortedQueue.new true, some NotInQueue.notInQueue) :=
  c5_not_found_error_no_mutation (SortedQueue.new true) 1 7 8 (by decide)

/-- Claim C6: `deq` on an empty queue returns the empty result, leaves
the queue unchanged, and `size` remains 0. -/
theorem c6_deq_empty [LinearOrder T] [DecidableEq F] [Inhabited T] [Inhabited F] :
    ∀ (q : SortedQueue T F), q.heap = [] →
      deq q = (q, none) ∧ size (deq q).1 = 0 := by
  intro q h
  have h0 : q.heap.length = 0 := by rw [h]; rfl
  refine ⟨deq_empty_eq q h0, ?_⟩
  rw [deq_empty_eq q h0]
  exact h0

/-- Witness for claim C6 at a concrete input. -/
theorem c6_witness :
    deq (SortedQueue.new true : SortedQueue Int Nat) = (SortedQueue.new true, none) ∧
      size (deq (SortedQueue.new true : SortedQueue Int Nat)).1 = 0 :=
  c6_deq_empty (SortedQueue.new true) rfl

/-- Claim C7: `size` grows by exactly one on `enq`, shrinks by exactly
one on a successful `deq`, and is unchanged by `change_priority` and
`set_ref` (`get_weight` takes the queue immutably and cannot change
it). -/
theorem c7_size_changes [LinearOrder T] [DecidableEq F] [Inhabited T] [Inhabited F] :
    ∀ (q : SortedQueue T F) (v : T) (d0 r : F),
      size (enq q v d0) = size q + 1 ∧
      ((deq q).2.isSome → size (deq q).1 + 1 = size q) ∧
      size (change_priority q v d0).1 = size q ∧
      size (set_ref q d0 r).1 = size q := by
  intro q v d0 r
  refine ⟨?_, ?_, ?_, ?_⟩
  · simp only [enq]
    show (sift_up _ q.heap.length).heap.length = q.heap.length + 1
    rw [sift_up_heap_length]
    simp
  · intro hs
    by_cases h0 : q.heap.length = 0
    · rw [deq_empty_eq q h0] at hs
      exact absurd hs (by simp)
    · have hlen := (deq_nonempty_parts q h0).1
      show (deq q).1.heap.length + 1 = q.heap.length
      rw [hlen]
      omega
  · rcases hmg : mapGet q.map d0 with _ | index
    · simp only [change_priority, hmg]
    · simp only [change_priority, hmg]
      split
      · show (sift_down _ index).heap.length = q.heap.length
        rw [sift_down_heap_length]
        simp
      · show (sift_up _ index).heap.length = q.heap.length
        rw [sift_up_heap_length]
        simp
  · rcases hmg : mapGet q.map d0 with _ | index
    · simp only [set_ref, hmg]
    · simp only [set_ref, hmg]
      show (q.heap.set index _).length = q.heap.length
      simp

/-- Witness for claim C7 at a concrete input. -/
theorem c7_witness :
    size (enq (enq (SortedQueue.new true) (1 : Int) (0 : Nat)) 5 0)
        = size (enq (SortedQueue.new true) (1 : Int) (0 : Nat)) + 1 ∧
      size (deq (enq (SortedQueue.new true) (1 : Int) (0 : Nat))).1 + 1
        = size (enq (SortedQueue.new true) (1 : Int) (0 : Nat)) ∧
      size (change_priority (enq (SortedQueue.new true) (1 : Int) (0 : Nat)) 5 0).1
        = size (enq (SortedQueue.new true) (1 : Int) (0 : Nat)) ∧
      size (set_ref (enq (SortedQueue.new true) (1 : Int) (0 : Nat)) 0 4).1
        = size (enq (SortedQueue.new true) (1 : Int) (0 : Nat)) := by
  have h := c7_size_changes (enq (SortedQueue.new true) (1 : Int) (0 : Nat)) 5 0 4
  exact ⟨h.1, h.2.1 (by decide), h.2.2.1, h.2.2.2⟩

end HeapQueue

namespace HeapQueue

variable {T F : Type}

/-- Counterexample to claim C4 as stated.  With only the no-double-enqueue
assumption, index consistency can still be broken by a public operation:
enqueue two distinct items 0 and 1 (each enqueued once), then call
`set_ref 0 1`, installing item 1 — which is already present — at slot 0.
Afterwards item 1 sits in the heap store at index 1 but the position
index answers 0 for it, so looking the stored item up does not yield its
index. -/
theorem c4_counterexample :
    1 < (set_ref (enq (enq (SortedQueue.new true) (2 : Int) (0 : Nat)) 1 1) 0 1).1.heap.length ∧
    (nth (set_ref (enq (enq (SortedQueue.new true) (2 : Int) (0 : Nat)) 1 1) 0 1).1.heap 1).2 = 1 ∧
    mapGet (set_ref (enq (enq (SortedQueue.new true) (2 : Int) (0 : Nat)) 1 1) 0 1).1.map 1
      = some 0 := by decide

/-- Claim C4, amended: assuming additionally that `set_ref` is never
given a new item already present in the queue (other than the old item
itself), every public operation preserves exact synchronisation of the
position index and the heap store: each stored item's index lookup
yields exactly its heap index, and every index binding points at the
slot holding that item (`get_weight` and `size` take the queue immutably
and cannot change it). -/
theorem c4_index_consistency [LinearOrder T] [DecidableEq F] [Inhabited T] [Inhabited F] :
    ∀ (q : SortedQueue T F), inSync q →
      (∀ (v : T) (d0 : F), mapGet q.map d0 = none → inSync (enq q v d0)) ∧
      inSync (deq q).1 ∧
      (∀ (v : T) (d0 : F), inSync (change_priority q v d0).1) ∧
      (∀ (d0 r : F), mapGet q.map r = none ∨ r = d0 → inSync (set_ref q d0 r).1) := by
  intro q hq
  exact ⟨fun v d0 hf => enq_inSync hq hf, deq_inSync hq,
    fun v d0 => change_priority_inSync hq v d0,
    fun d0 r hfr => set_ref_inSync hq hfr⟩

/-- Witness for the amended claim C4 at a concrete input. -/
theorem c4_witness :
    inSync (enq (enq (enq (SortedQueue.new true) (2 : Int) (0 : Nat)) 1 1) 3 2) ∧
    inSync (deq (enq (enq (SortedQueue.new true) (2 : Int) (0 : Nat)) 1 1)).1 ∧
    inSync (change_priority (enq (enq (SortedQueue.new true) (2 : Int) (0 : Nat)) 1 1) 5 0).1 ∧
    inSync (set_ref (enq (enq (SortedQueue.new true) (2 : Int) (0 : Nat)) 1 1) 0 2).1 := by
  have h := c4_index_consistency (enq (enq (SortedQueue.new true) (2 : Int) (0 : Nat)) 1 1)
    (inSync_of_inSyncB (by decide))
  exact ⟨h.1 3 2 (by decide), h.2.1, h.2.2.1 5 0, h.2.2.2 0 2 (Or.inl (by decide))⟩

/-- Claim C8: on an index-consistent queue containing item `x`, a
`change_priority p x` call succeeds and an immediately following
`get_weight x` returns `p`. -/
theorem c8_change_priority_get_weight [LinearOrder T] [DecidableEq F] [Inhabited T] [Inhabited F] :
    ∀ (q : SortedQueue T F) (p : T) (x : F), inSync q → (mapGet q.map x).isSome →
      (change_priority q p x).2 = none ∧
      get_weight (change_priority q p x).1 x = some p := by
  intro q p x hq hsome
  rcases hmg : mapGet q.map x with _ | index
  · rw [hmg] at hsome
    exact absurd hsome (by simp)
  · obtain ⟨hidx, hitem⟩ := hq.2 x index (by simp) hmg
    have hPswap : ∀ (a : SortedQueue T F) (i1 i2 : Nat),
        i1 < a.heap.length → i2 < a.heap.length →
        (inSyncX a none ∧ itemPrio a x p ∧ (mapGet a.map x).isSome) →
        (inSyncX (swap a i1 i2) none ∧ itemPrio (swap a i1 i2) x p ∧
          (mapGet (swap a i1 i2).map x).isSome) :=
      fun a i1 i2 hb hc hP =>
        ⟨swap_inSyncX hb hc hP.1, swap_itemPrio hb hc hP.2.1, swap_mapGet_isSome hP.2.2⟩
    have hq1 : inSyncX ({ q with heap := q.heap.set index (p, x) } : SortedQueue T F) none ∧
        itemPrio ({ q with heap := q.heap.set index (p, x) } : SortedQueue T F) x p ∧
        (mapGet ({ q with heap := q.heap.set index (p, x) } : SortedQueue T F).map x).isSome := by
      refine ⟨?_, ?_, ?_⟩
      · apply inSyncX_congr (q := q)
        · simp
        · intro f; rfl
        · intro j hj
          by_cases hji : j = index
          · rw [hji, nth_set_self hidx, hitem]
          · rw [nth_set_ne (fun hc => hji hc.symm)]
        · exact hq
      · intro j hj hxj
        have hj' : j < q.heap.length := by simpa using hj
        by_cases hji : j = index
        · rw [hji, nth_set_self hidx]
        · rw [nth_set_ne (fun hc => hji hc.symm)] at hxj
          have : j = index := inSyncX_distinct hq hj' hidx (by rw [hxj, ← hitem])
          exact absurd this hji
      · show (mapGet q.map x).isSome
        rw [hmg]
        rfl
    have hfinal : ∀ s : SortedQueue T F,
        (inSyncX s none ∧ itemPrio s x p ∧ (mapGet s.map x).isSome) →
        get_weight s x = some p := by
      intro s hs
      obtain ⟨hsync, hprio, hsome2⟩ := hs
      rcases hg : mapGet s.map x with _ | i2
      · rw [hg] at hsome2
        exact absurd hsome2 (by simp)
      · obtain ⟨hi2, hitem2⟩ := hsync.2 x i2 (by simp) hg
        simp only [get_weight, hg]
        rw [hprio i2 hi2 hitem2]
    simp only [change_priority, hmg]
    split
    · refine ⟨rfl, ?_⟩
      apply hfinal
      exact sift_down_preserves _ hPswap _ index (by simpa using hidx) hq1
    · refine ⟨rfl, ?_⟩
      apply hfinal
      exact sift_up_preserves _ hPswap _ index (by simpa using hidx) hq1

/-- Witness for claim C8 at a concrete input. -/
theorem c8_witness :
    (change_priority (enq (enq (SortedQueue.new true) (2 : Int) (0 : Nat)) 1 1) 7 1).2 = none ∧
    get_weight (change_priority (enq (enq (SortedQueue.new true) (2 : Int) (0 : Nat)) 1 1) 7 1).1 1
      = some 7 :=
  c8_change_priority_get_weight (enq (enq (SortedQueue.new true) (2 : Int) (0 : Nat)) 1 1) 7 1
    (inSync_of_inSyncB (by decide)) (by decide)

/-- Claim C9: a successful `set_ref old new` on a queue where `old` is
recorded at heap index `i` returns no error, keeps the heap length and
the priority at slot `i`, replaces only slot `i`'s item with `new`,
leaves every other heap entry unchanged, repoints the position index
from `old` to `new` at index `i`, leaves every other item's binding
unchanged, and keeps `size`. -/
theorem c9_set_ref_frame [DecidableEq F] [Inhabited T] [Inhabited F] :
    ∀ (q : SortedQueue T F) (o r : F) (i : Nat),
      mapGet q.map o = some i → i < q.heap.length →
      (set_ref q o r).2 = none ∧
      (set_ref q o r).1.heap.length = q.heap.length ∧
      (nth (set_ref q o r).1.heap i).1 = (nth q.heap i).1 ∧
      (nth (set_ref q o r).1.heap i).2 = r ∧
      (∀ j, j ≠ i → nth (set_ref q o r).1.heap j = nth q.heap j) ∧
      mapGet (set_ref q o r).1.map r = some i ∧
      (o ≠ r → mapGet (set_ref q o r).1.map o = none) ∧
      (∀ f, f ≠ o → f ≠ r → mapGet (set_ref q o r).1.map f = mapGet q.map f) ∧
      size (set_ref q o r).1 = size q := by
  intro q o r i hmg hi
  have hsr : set_ref q o r =
      (SortedQueue.mk (q.heap.set i ((nth q.heap i).1, r)) q.max
        (mapInsert (mapRemove q.map o) r i), none) := by
    simp only [set_ref, hmg]
  rw [hsr]
  refine ⟨rfl, by simp, ?_, ?_, ?_, ?_, ?_, ?_, ?_⟩
  · rw [nth_set_self hi]
  · rw [nth_set_self hi]
  · intro j hj
    exact nth_set_ne (fun hc => hj hc.symm)
  · exact mapGet_insert_self _ _ _
  · intro hor
    rw [mapGet_insert_ne hor]
    exact mapGet_remove_self _ _
  · intro f hfo hfr
    rw [mapGet_insert_ne hfr]
    exact mapGet_remove_ne hfo
  · show (q.heap.set i ((nth q.heap i).1, r)).length = q.heap.length
    simp

/-- Witness for claim C9 at a concrete input. -/
theorem c9_witness :
    (set_ref (enq (enq (SortedQueue.new true) (2 : Int) (0 : Nat)) 1 1) 0 5).2 = none ∧
    mapGet (set_ref (enq (enq (SortedQueue.new true) (2 : Int) (0 : Nat)) 1 1) 0 5).1.map 5
      = some 0 := by
  have h := c9_set_ref_frame (enq (enq (SortedQueue.new true) (2 : Int) (0 : Nat)) 1 1) 0 5 0
    (by decide) (by decide)
  exact ⟨h.1, h.2.2.2.2.2.1⟩

/-- Claim C10: every public operation terminates.  The only loops are
those of `sift_down` and `sift_up`; both loop bodies stabilise, so the
fuel supplied by the wrappers is sufficient.  For `sift_down`, the loop
index strictly increases and the loop stops once the left child passes
the end, so any fuel of at least `heap.length` gives the same result;
for `sift_up`, the loop either breaks on a failed comparison or after a
swap (whereupon the next comparison fails by asymmetry of the strict
order, the loop index never advancing) or stops at parent index 0, so
any fuel of at least 2 gives the same result.  All remaining operations
are loop-free compositions of these. -/
theorem c10_termination [LinearOrder T] [DecidableEq F] [Inhabited T] [Inhabited F] :
    (∀ (q : SortedQueue T F) (i fuel : Nat), q.heap.length ≤ fuel →
      siftDownFuel fuel q i = siftDownFuel q.heap.length q i) ∧
    (∀ (q : SortedQueue T F) (i fuel : Nat), 2 ≤ fuel →
      siftUpFuel fuel q i = siftUpFuel 2 q i) := by
  constructor
  · intro q i fuel h
    exact siftDownFuel_stable fuel q.heap.length q i (by omega) (by omega)
  · intro q i fuel h
    obtain ⟨k, hk⟩ := Nat.exists_eq_add_of_le h
    rw [hk, Nat.add_comm]
    exact siftUpFuel_stable k q i

/-- Witness for claim C10 at a concrete input. -/
theorem c10_witness :
    siftDownFuel 7 (⟨[((3 : Int), (0 : Nat)), (1, 1), (2, 2)], true,
        [(0, 0), (1, 1), (2, 2)]⟩ : SortedQueue Int Nat) 0
      = siftDownFuel 3 (⟨[((3 : Int), (0 : Nat)), (1, 1), (2, 2)], true,
        [(0, 0), (1, 1), (2, 2)]⟩ : SortedQueue Int Nat) 0 ∧
    siftUpFuel 9 (⟨[((3 : Int), (0 : Nat)), (1, 1), (2, 2)], true,
        [(0, 0), (1, 1), (2, 2)]⟩ : SortedQueue Int Nat) 2
      = siftUpFuel 2 (⟨[((3 : Int), (0 : Nat)), (1, 1), (2, 2)], true,
        [(0, 0), (1, 1), (2, 2)]⟩ : SortedQueue Int Nat) 2 := by
  constructor
  · exact c10_termination.1 (⟨[((3 : Int), (0 : Nat)), (1, 1), (2, 2)], true,
      [(0, 0), (1, 1), (2, 2)]⟩ : SortedQueue Int Nat) 0 7 (by decide)
  · exact c10_termination.2 (⟨[((3 : Int), (0 : Nat)), (1, 1), (2, 2)], true,
      [(0, 0), (1, 1), (2, 2)]⟩ : SortedQueue Int Nat) 2 9 (by decide)

end HeapQueue
